import Mathlib

/-!
Verification of the result-extraction layer of the oemof repository
(`src/oemof/outputlib/result_dict.py`) against its natural-language
specification.

The Python module is shallowly embedded below.  Pandas objects are modelled
explicitly: a DataFrame of variable records becomes a list of rows, a pivot
table becomes cell lookups over the group's rows, a result entry is a pair of
a scalar series and a sequence frame.  Every fallible pandas operation
(index assignment with mismatched length, pivoting with duplicate entries,
`.iloc[0]` on an empty frame, column assignment of the wrong length, mapping
`get_timestep` over a `None` tuple) is modelled by `Except RErr`, with one
error constructor per Python exception site.  Numeric values are modelled as
`Int` (the claims under consideration never depend on float arithmetic,
only on values being moved around and on null-ness, which `Option` carries).
-/

namespace Oemof

/-- Modelled from the spec: `oemof.network.Node` is not under `src/`; the spec
states that an entity is "a named node in the energy system" whose
"immutable identity = label" and which "exposes a stable string label"
(used by `str(node)`).  A node is therefore modelled as its label. -/
structure Node where
  label : String
deriving DecidableEq

/-- Element of a flat pyomo index tuple: an entity reference (a `Node`
subclass), an integer (time step), or any other object (modelled as a
string, e.g. the block and variable name strings of the pyomo key). -/
inductive Elem where
  | node (n : Node)
  | int (t : Int)
  | str (s : String)
deriving DecidableEq

/-- Element of the iterable handed to `get_tuple`: either a python tuple of
index elements or a single non-tuple object. -/
inductive PyKeyElem where
  | tup (xs : List Elem)
  | elem (e : Elem)
deriving DecidableEq

/-- Python `issubclass(type(i), Node)` on an index element. -/
def is_node : Elem → Bool
  | .node _ => true
  | _ => false

/-- Python `get_tuple(x)`: scan the iterable; return the first element that
is a tuple, or wrap the first `Node` in a 1-tuple; fall through to `None`
(modelled as `none`) when no element matches. -/
def get_tuple : List PyKeyElem → Option (List Elem)
  | [] => none
  | .tup xs :: _ => some xs
  | .elem (.node n) :: _ => some [.node n]
  | .elem _ :: rest => get_tuple rest

/-- Python `get_timestep(x)`: `0` when every element of the tuple is a
`Node`, the last element `x[-1]` otherwise.  The `else` branch is only ever
reached with a non-empty tuple, so the `getLastD` default is inert. -/
def get_timestep (x : List Elem) : Elem :=
  if x.all is_node then .int 0 else x.getLastD (.int 0)

/-- Python `remove_timestep(x)`: the tuple itself when every element is a
`Node`, `x[:-1]` otherwise. -/
def remove_timestep (x : List Elem) : List Elem :=
  if x.all is_node then x else x.dropLast

/-- Modelled from the spec (section 4.1): the relation key as the spec words
it, "the maximal leading sub-tuple of entity references" of a raw index.
Stated only to be compared with the key the source actually computes. -/
def leadingEntities (x : List Elem) : List Elem :=
  x.takeWhile is_node

/-- One pyomo variable record, as assembled into `var_dict` by
`results_to_df`: the block-name string, the variable-name string, the pyomo
index object `i`, and `bv[i].value` (`none` models python `None`). -/
structure VarRecord where
  block : String
  var : String
  idx : PyKeyElem
  value : Option Int
deriving DecidableEq

/-- The key of `var_dict`, the 3-tuple `(block, var, i)` that `get_tuple`
iterates over. -/
def pyomoKey (r : VarRecord) : List PyKeyElem :=
  [.elem (.str r.block), .elem (.str r.var), r.idx]

/-- One row of the dataframe built by `results_to_df`, carrying the columns
`oemof_tuple` (after `remove_timestep`), `timestep`, `variable_name` and
`value`. -/
structure Row where
  key : List Elem
  ts : Elem
  var : String
  value : Option Int
deriving DecidableEq

/-- Error outcomes of the extractor, one constructor per Python exception
site.  The spec names `missingIndex` a `MissingIndexError` and the
`ValueError` family (`alignment`) a `DataAlignmentError`. -/
inductive RErr where
  /-- TypeError raised by `get_timestep(None)` when `get_tuple` found no
  entity reference in a record's index. -/
  | missingIndex
  /-- TypeError raised by the pivot when the timestep column cannot be
  ordered (non-integer entries). -/
  | badTimestep
  /-- ValueError raised on a length mismatch (index assignment, duplicate
  pivot entries, column assignment of the wrong length). -/
  | alignment
  /-- IndexError raised by `.iloc[0]` when `dropna()` left no row. -/
  | emptyScalars
deriving DecidableEq

/-- Short-circuiting traversal: the pandas column-wise `.map` and the
per-group loop both stop at the first raised exception. -/
def mapExcept (f : α → Except RErr β) : List α → Except RErr (List β)
  | [] => .ok []
  | x :: xs =>
    match f x with
    | .error e => .error e
    | .ok y =>
      match mapExcept f xs with
      | .error e => .error e
      | .ok ys => .ok (y :: ys)

/-- Normalization of one record, the per-row content of lines 81-83 of
`results_to_df`: `get_tuple` extracts the oemof tuple (a `None` there makes
the subsequent `get_timestep` call raise, modelled as `missingIndex`), then
`get_timestep` and `remove_timestep` split it. -/
def normalize_record (r : VarRecord) : Except RErr Row :=
  match get_tuple (pyomoKey r) with
  | none => .error .missingIndex
  | some t => .ok { key := remove_timestep t, ts := get_timestep t, var := r.var, value := r.value }

/-- Python `results_to_df`: build the normalized rows.  The final
`sort_values(['oemof_tuple', 'timestep'])` is omitted from the model: the
downstream `groupby` and `pivot` are value-based and the pivot re-sorts its
own index, so the row order of this dataframe is unobservable in
`results_to_dict`. -/
def results_to_df (records : List VarRecord) : Except RErr (List Row) :=
  mapExcept normalize_record records

/-- Distinct oemof tuples, the group keys of `df.groupby('oemof_tuple')`.
The key order of the python `groupby` (sorted) is unobservable in the
resulting dictionary, so plain deduplication is used. -/
def keysOf (rows : List Row) : List (List Elem) :=
  (rows.map (·.key)).dedup

/-- Rows of one group of `df.groupby('oemof_tuple')`. -/
def groupOf (rows : List Row) (k : List Elem) : List Row :=
  rows.filter (fun r => decide (r.key = k))

/-- Integer view of a timestep cell, used by the pivot model. -/
def Elem.int? : Elem → Option Int
  | .int t => some t
  | _ => none

/-- The timestep column of one group as integers; `none` models the
TypeError pandas raises when sorting a pivot index whose entries are not
mutually orderable. -/
def tsIntsOf : List Row → Option (List Int)
  | [] => some []
  | r :: g =>
    match r.ts with
    | .int t => (tsIntsOf g).map (t :: ·)
    | _ => none

/-- Sorted distinct timesteps: the row index of the pivot table, which
pandas `pivot` sorts ascending. -/
def sortedTss (l : List Int) : List Int :=
  List.insertionSort (· ≤ ·) l.dedup

/-- Distinct variable names of one group: the pivot's columns. -/
def varsOf (g : List Row) : List String :=
  (g.map (·.var)).dedup

/-- Values of the group's records at one (variable, timestep) cell. -/
def cellRecs (g : List Row) (v : String) (t : Int) : List (Option Int) :=
  (g.filter (fun r => decide (r.var = v) && decide (r.ts = Elem.int t))).map (·.value)

/-- The pivot cell for (variable, timestep): `none` is pandas NaN, which
arises both from an absent record and from a record whose solver value was
python `None`. -/
def cell (g : List Row) (v : String) (t : Int) : Option Int :=
  ((cellRecs g v t).head?).join

/-- Whether some (variable, timestep) cell of the group holds two or more
records; pandas `pivot` raises ValueError on such duplicate entries. -/
def hasDup (g : List Row) (tss : List Int) : Bool :=
  (varsOf g).any (fun v => tss.any (fun t => 2 ≤ (cellRecs g v t).length))

/-- Python `df_dict[k].isnull().any()` for one column: the variable has at
least one NaN cell over the pivot's row index. -/
def isMissing (g : List Row) (tss : List Int) (v : String) : Bool :=
  tss.any (fun t => (cell g v t).isNone)

/-- Rows surviving `dropna()` on the scalar-column selection: the timesteps
at which every scalar-classified variable is non-null. -/
def keptRows (g : List Row) (tss : List Int) : List Int :=
  tss.filter (fun t =>
    ((varsOf g).filter (fun v => isMissing g tss v)).all (fun v => (cell g v t).isSome))

/-- Sequence table of a result entry: a pandas DataFrame with a row index
(the system time index after line 114) and named columns. -/
structure Frame where
  index : List String
  cols : List (String × List (Option Int))
deriving DecidableEq

/-- One result entry: the `scalars` Series and the `sequences` DataFrame. -/
structure Entry where
  scalars : List (String × Option Int)
  sequences : Frame
deriving DecidableEq

/-- Lines 112-117 of `results_to_dict`, for one group `df_dict[k]`:
pivot on (timestep, variable_name) — ValueError on duplicate entries,
TypeError on an unorderable timestep column; assign `es.timeindex` as the
new row index — ValueError unless the pivot has exactly as many rows;
select the columns with any null as scalars, `dropna()` the selected rows
and take `.iloc[0]` — IndexError when no row survives; the remaining
columns, in pivot row order relabelled by the time index, are the
sequences. -/
def process_group (g : List Row) (ti : List String) : Except RErr Entry :=
  match tsIntsOf g with
  | none => .error .badTimestep
  | some l =>
    let tss := sortedTss l
    if hasDup g tss then .error .alignment
    else if tss.length = ti.length then
      let svars := (varsOf g).filter (fun v => isMissing g tss v)
      let qvars := (varsOf g).filter (fun v => !isMissing g tss v)
      match (keptRows g tss).head? with
      | none => .error .emptyScalars
      | some t0 =>
        .ok { scalars := svars.map (fun v => (v, cell g v t0)),
              sequences := { index := ti,
                             cols := qvars.map (fun v => (v, tss.map (cell g v))) } }
    else .error .alignment

/-- The result store: a python dict from oemof tuple to entry, modelled as
an association list in insertion order. -/
abbrev Store := List (List Elem × Entry)

/-- The dual-value input: the keys of `om.Bus.balance` paired with
`om.dual` of the corresponding constraint, i.e. `((bus, timestep), dual)`
for every balance constraint.  `none` at the call site models an `om`
without a `dual` attribute. -/
abbrev DualMap := List ((Node × Int) × Int)

/-- Replace-or-append assignment of a named DataFrame column, the column
part of `results[(bus,)]['sequences']['duals'] = duals`. -/
def setColList (cols : List (String × List (Option Int))) (name : String)
    (vs : List (Option Int)) : List (String × List (Option Int)) :=
  if cols.any (fun c => decide (c.1 = name)) then
    cols.map (fun c => if c.1 = name then (name, vs) else c)
  else cols ++ [(name, vs)]

/-- Column assignment on a DataFrame: pandas raises ValueError when the
assigned values do not match the frame's row count. -/
def Frame.setCol (f : Frame) (name : String) (vs : List (Option Int)) :
    Except RErr Frame :=
  if vs.length = f.index.length then .ok ⟨f.index, setColList f.cols name vs⟩
  else .error .alignment

/-- Distinct buses of the balance-constraint keys, the group keys of
`groupby(sorted(om.Bus.balance.iterkeys()), lambda p: p[0])`. -/
def busesOf (dm : DualMap) : List Node :=
  (dm.map (·.1.1)).dedup

/-- The timesteps of one bus's balance constraints, ascending: sorting the
`(bus, timestep)` keys orders each bus's run by timestep. -/
def busTs (dm : DualMap) (b : Node) : List Int :=
  List.insertionSort (· ≤ ·) ((dm.filter (fun p => decide (p.1.1 = b))).map (·.1.2)).dedup

/-- The dual value of one balance constraint, `om.dual[om.Bus.balance[bus, t]]`. -/
def dualVal (dm : DualMap) (b : Node) (t : Int) : Int :=
  ((dm.find? (fun p => decide (p.1 = (b, t)))).map (·.2)).getD 0

/-- The `duals` list of one bus, in ascending timestep order. -/
def busDuals (dm : DualMap) (b : Node) : List Int :=
  (busTs dm b).map (dualVal dm b)

/-- The in-place dict update of line 128 on one store entry: assign the
`duals` column when the entry carries the bus's relation key, keep the
entry untouched otherwise. -/
def upd_dual_entry (duals : List (Option Int)) (key : List Elem)
    (p : List Elem × Entry) : Except RErr (List Elem × Entry) :=
  if p.1 = key then
    match Frame.setCol p.2.sequences "duals" duals with
    | .error e => .error e
    | .ok f => .ok (p.1, ⟨p.2.scalars, f⟩)
  else .ok p

/-- Lines 122-128 of `results_to_dict` for a single bus: when the 1-tuple
key is absent from the store, append a fresh entry holding only a `duals`
sequence over the time index (ValueError when the lengths differ) and an
empty scalar Series; otherwise assign the `duals` column on the existing
entry's sequence table. -/
def add_dual_bus (ti : List String) (dm : DualMap) (b : Node) (st : Store) :
    Except RErr Store :=
  let duals := (busDuals dm b).map some
  if st.any (fun p => decide (p.1 = [Elem.node b])) then
    mapExcept (upd_dual_entry duals [Elem.node b]) st
  else
    if duals.length = ti.length then
      .ok (st ++ [([Elem.node b], ⟨[], ⟨ti, [("duals", duals)]⟩⟩)])
    else .error .alignment

/-- The dual-augmentation loop over the grouped buses. -/
def add_duals (ti : List String) (dm : DualMap) : List Node → Store → Except RErr Store
  | [], st => .ok st
  | b :: rest, st =>
    match add_dual_bus ti dm b st with
    | .error e => .error e
    | .ok st1 => add_duals ti dm rest st1

/-- Python `str(e)` on a key element: the label of a `Node` (modelled from
the spec, `oemof.network` not being under `src/`: each entity "exposes a
stable string label"), the decimal rendering of an integer, the string
itself otherwise. -/
def pyStr : Elem → String
  | .node n => n.label
  | .int t => toString t
  | .str s => s

/-- One stringified key, `tuple([str(e) for e in k])`: a tuple of plain
strings, which in this embedding is again a list of `Elem.str` elements. -/
def strKey (k : List Elem) : List Elem :=
  k.map (fun e => Elem.str (pyStr e))

/-- Line 132: re-key the whole store by stringified tuples. -/
def stringifyStore (st : Store) : Store :=
  st.map (fun p => (strKey p.1, p.2))

/-- One iteration of the loop at lines 111-117: the result-store item of
one relation key. -/
def group_entry (rows : List Row) (ti : List String) (k : List Elem) :
    Except RErr (List Elem × Entry) :=
  match process_group (groupOf rows k) ti with
  | .error e => .error e
  | .ok en => .ok (k, en)

/-- Lines 102-117 of `results_to_dict`: normalize the records and build the
per-group result entries, keyed by oemof tuple. -/
def results_base (records : List VarRecord) (ti : List String) : Except RErr Store :=
  match results_to_df records with
  | .error e => .error e
  | .ok rows => mapExcept (group_entry rows ti) (keysOf rows)

/-- Lines 119-128: augment the store with dual values when the model
exposes them (`hasattr(om, 'dual')`). -/
def results_with_duals (records : List VarRecord) (ti : List String)
    (dm : Option DualMap) : Except RErr Store :=
  match results_base records ti with
  | .error e => .error e
  | .ok base =>
    match dm with
    | none => .ok base
    | some l => add_duals ti l (busesOf l) base

/-- Python `results_to_dict(es, om, keys_as_strings)`: normalize the
records, group them by oemof tuple, pivot and split each group, augment
with dual values when the model exposes them, and optionally stringify the
keys.  `ti` is `es.timeindex`, `dm` the dual information (see `DualMap`). -/
def results_to_dict (records : List VarRecord) (ti : List String)
    (dm : Option DualMap) (keys_as_strings : Bool) : Except RErr Store :=
  match results_with_duals records ti dm with
  | .error e => .error e
  | .ok withD => .ok (if keys_as_strings then stringifyStore withD else withD)

/-- Record count of one variable inside one group, the number of normalized
records carrying that variable name for the group's relation key. -/
def recordCount (g : List Row) (v : String) : Nat :=
  (g.filter (fun r => decide (r.var = v))).length

/-- Spec-side notion for claim C2: the first non-missing value of a column
over the pivot's row index ("take first non-missing value"). -/
def specFirstNonMissing (g : List Row) (tss : List Int) (v : String) : Option Int :=
  (tss.filterMap (fun t => cell g v t)).head?

/-- Association-list lookup on named columns and series. -/
def lookupCol (l : List (String × α)) (v : String) : Option α :=
  (l.find? (fun p => decide (p.1 = v))).map (·.2)

/-- The full time index as integer timesteps 0, 1, ..., n-1. -/
def intRange (n : Nat) : List Int :=
  (List.range n).map Int.ofNat

/-- Whether an element of the pyomo key iterable is recognized by
`get_tuple` (a tuple or a `Node`). -/
def isEntityRef : PyKeyElem → Bool
  | .tup _ => true
  | .elem (.node _) => true
  | .elem _ => false

end Oemof

namespace Oemof

/-- Claim C1 helper fact: a list of entity references is all-`Node`. -/
theorem all_is_node_map (ns : List Node) : (ns.map Elem.node).all is_node = true := by
  induction ns with
  | nil => rfl
  | cons n ns ih => simp [is_node, ih]

theorem takeWhile_map_node (ns : List Node) :
    (ns.map Elem.node).takeWhile is_node = ns.map Elem.node := by
  induction ns with
  | nil => rfl
  | cons n ns ih => simp [List.takeWhile, is_node, ih]

theorem takeWhile_map_node_concat (ns : List Node) (t : Int) :
    ((ns.map Elem.node) ++ [Elem.int t]).takeWhile is_node = ns.map Elem.node := by
  induction ns with
  | nil => rfl
  | cons n ns ih => simp [List.takeWhile, is_node, ih]

theorem all_map_node_concat_int (ns : List Node) (t : Int) :
    ((ns.map Elem.node) ++ [Elem.int t]).all is_node = false := by
  simp [List.all_append, is_node]

/-- C1: for every variable record whose raw index is a tuple of one or two
entity references optionally followed by an integer, the record normalizer
(`get_tuple` + `remove_timestep` + `get_timestep`, lines 81-83) yields as
relation key the maximal leading sub-tuple of entity references of the raw
index (of length 1 or 2), and as time step the trailing non-entity element
when one is present and 0 otherwise. -/
theorem c1_record_normalizer (b v : String) (val : Option Int) (ns : List Node)
    (hlen : ns.length = 1 ∨ ns.length = 2) :
    (normalize_record ⟨b, v, .tup (ns.map Elem.node), val⟩ =
        .ok ⟨leadingEntities (ns.map Elem.node), Elem.int 0, v, val⟩ ∧
      leadingEntities (ns.map Elem.node) = ns.map Elem.node ∧
      ((leadingEntities (ns.map Elem.node)).length = 1 ∨
        (leadingEntities (ns.map Elem.node)).length = 2)) ∧
    (∀ t : Int,
      normalize_record ⟨b, v, .tup (ns.map Elem.node ++ [Elem.int t]), val⟩ =
        .ok ⟨leadingEntities (ns.map Elem.node ++ [Elem.int t]), Elem.int t, v, val⟩ ∧
      leadingEntities (ns.map Elem.node ++ [Elem.int t]) = ns.map Elem.node ∧
      ((leadingEntities (ns.map Elem.node ++ [Elem.int t])).length = 1 ∨
        (leadingEntities (ns.map Elem.node ++ [Elem.int t])).length = 2)) := by
  constructor
  · refine ⟨?_, takeWhile_map_node ns, ?_⟩
    · simp [normalize_record, pyomoKey, get_tuple, remove_timestep, get_timestep,
        leadingEntities, all_is_node_map, takeWhile_map_node]
    · rw [leadingEntities, takeWhile_map_node]
      simpa using hlen
  · intro t
    refine ⟨?_, takeWhile_map_node_concat ns t, ?_⟩
    · have hx : normalize_record ⟨b, v, .tup (ns.map Elem.node ++ [Elem.int t]), val⟩ =
          .ok ⟨remove_timestep (ns.map Elem.node ++ [Elem.int t]),
               get_timestep (ns.map Elem.node ++ [Elem.int t]), v, val⟩ := rfl
      have hrm : remove_timestep (ns.map Elem.node ++ [Elem.int t]) = ns.map Elem.node := by
        rw [remove_timestep, if_neg, List.dropLast_concat]
        intro hcon
        rw [all_map_node_concat_int] at hcon
        exact Bool.false_ne_true hcon
      have hts : get_timestep (ns.map Elem.node ++ [Elem.int t]) = Elem.int t := by
        rw [get_timestep, if_neg, List.getLastD_concat]
        intro hcon
        rw [all_map_node_concat_int] at hcon
        exact Bool.false_ne_true hcon
      rw [hx, hrm, hts, leadingEntities, takeWhile_map_node_concat]
    · rw [leadingEntities, takeWhile_map_node_concat]
      simpa using hlen

/-- Witness for C1 at the concrete raw index `(n1, 4)`. -/
theorem c1_record_normalizer_witness :
    normalize_record ⟨"om", "flow", .tup [Elem.node ⟨"n1"⟩, Elem.int 4], some 9⟩ =
      .ok ⟨leadingEntities [Elem.node ⟨"n1"⟩, Elem.int 4], Elem.int 4, "flow", some 9⟩ ∧
    leadingEntities [Elem.node ⟨"n1"⟩, Elem.int 4] = [Elem.node ⟨"n1"⟩] := by
  have h := (c1_record_normalizer "om" "flow" (some 9) [⟨"n1"⟩] (Or.inl rfl)).2 4
  exact ⟨h.1, by simpa using h.2.1⟩

/-- C9: for every non-empty raw index tuple the decomposition into relation
key and time step is lossless: an all-entity tuple keeps its key and gets
time step 0, and otherwise the time step is the last element and
re-appending it to the key restores the tuple. -/
theorem c9_lossless_decomposition (x : List Elem) (h : x ≠ []) :
    (x.all is_node = true → get_timestep x = Elem.int 0 ∧ remove_timestep x = x) ∧
    (x.all is_node = false → get_timestep x = x.getLast h ∧
      remove_timestep x ++ [get_timestep x] = x) := by
  constructor
  · intro hall
    simp [get_timestep, remove_timestep, hall]
  · intro hall
    have hlast : get_timestep x = x.getLast h := by
      rw [get_timestep, if_neg (by simp [hall]), List.getLastD_eq_getLast?,
        List.getLast?_eq_getLast x h]
      rfl
    refine ⟨hlast, ?_⟩
    rw [hlast, remove_timestep, if_neg (by simp [hall])]
    exact List.dropLast_append_getLast h

/-- Witness for C9 at the concrete tuples `(n1, n2)` and `(n1, 3)`. -/
theorem c9_lossless_decomposition_witness :
    (get_timestep [Elem.node ⟨"n1"⟩, Elem.node ⟨"n2"⟩] = Elem.int 0 ∧
      remove_timestep [Elem.node ⟨"n1"⟩, Elem.node ⟨"n2"⟩] =
        [Elem.node ⟨"n1"⟩, Elem.node ⟨"n2"⟩]) ∧
    (get_timestep [Elem.node ⟨"n1"⟩, Elem.int 3] = Elem.int 3 ∧
      remove_timestep [Elem.node ⟨"n1"⟩, Elem.int 3] ++
        [get_timestep [Elem.node ⟨"n1"⟩, Elem.int 3]] =
        [Elem.node ⟨"n1"⟩, Elem.int 3]) := by
  constructor
  · exact (c9_lossless_decomposition [Elem.node ⟨"n1"⟩, Elem.node ⟨"n2"⟩]
      (by simp)).1 (by decide)
  · have h := (c9_lossless_decomposition [Elem.node ⟨"n1"⟩, Elem.int 3]
      (by simp)).2 (by decide)
    exact ⟨h.1.trans (by decide), h.2⟩

theorem mapExcept_error_mem {f : α → Except RErr β} {l : List α} {e : RErr}
    (h : mapExcept f l = .error e) : ∃ x ∈ l, f x = .error e := by
  induction l with
  | nil => simp [mapExcept] at h
  | cons x xs ih =>
    rw [mapExcept] at h
    cases hx : f x with
    | error e' =>
      rw [hx] at h
      cases h
      exact ⟨x, List.mem_cons_self x xs, hx⟩
    | ok y =>
      rw [hx] at h
      cases hxs : mapExcept f xs with
      | error e' =>
        rw [hxs] at h
        cases h
        obtain ⟨z, hz, hfz⟩ := ih hxs
        exact ⟨z, List.mem_cons_of_mem x hz, hfz⟩
      | ok ys => rw [hxs] at h; cases h

theorem mapExcept_mem_error {f : α → Except RErr β} {l : List α} {x : α} {e : RErr}
    (hmem : x ∈ l) (hx : f x = .error e) : ∃ e', mapExcept f l = .error e' := by
  induction l with
  | nil => cases hmem
  | cons y ys ih =>
    rcases List.mem_cons.mp hmem with rfl | hmem'
    · exact ⟨e, by rw [mapExcept, hx]⟩
    · cases hy : f y with
      | error e' => exact ⟨e', by rw [mapExcept, hy]⟩
      | ok z =>
        obtain ⟨e', he'⟩ := ih hmem'
        exact ⟨e', by rw [mapExcept, hy, he']⟩

theorem mapExcept_ok_mem {f : α → Except RErr β} {l : List α} {ys : List β}
    (h : mapExcept f l = .ok ys) : ∀ x ∈ l, ∃ y ∈ ys, f x = .ok y := by
  induction l generalizing ys with
  | nil => intro x hx; cases hx
  | cons a as ih =>
    intro x hx
    rw [mapExcept] at h
    cases ha : f a with
    | error e => rw [ha] at h; cases h
    | ok b =>
      rw [ha] at h
      cases has : mapExcept f as with
      | error e => rw [has] at h; cases h
      | ok bs =>
        rw [has] at h
        cases h
        rcases List.mem_cons.mp hx with rfl | hx'
        · exact ⟨b, List.mem_cons_self b bs, ha⟩
        · obtain ⟨y, hy, hfy⟩ := ih has x hx'
          exact ⟨y, List.mem_cons_of_mem b hy, hfy⟩

theorem mapExcept_mem_ok {f : α → Except RErr β} {l : List α} {ys : List β}
    (h : mapExcept f l = .ok ys) : ∀ y ∈ ys, ∃ x ∈ l, f x = .ok y := by
  induction l generalizing ys with
  | nil =>
    rw [mapExcept] at h
    cases h
    intro y hy; cases hy
  | cons a as ih =>
    intro y hy
    rw [mapExcept] at h
    cases ha : f a with
    | error e => rw [ha] at h; cases h
    | ok b =>
      rw [ha] at h
      cases has : mapExcept f as with
      | error e => rw [has] at h; cases h
      | ok bs =>
        rw [has] at h
        cases h
        rcases List.mem_cons.mp hy with rfl | hy'
        · exact ⟨a, List.mem_cons_self a as, ha⟩
        · obtain ⟨x, hx, hfx⟩ := ih has y hy'
          exact ⟨x, List.mem_cons_of_mem a hx, hfx⟩

theorem mapExcept_ok_of {f : α → Except RErr β} {g : α → β} {l : List α}
    (h : ∀ x ∈ l, f x = .ok (g x)) : mapExcept f l = .ok (l.map g) := by
  induction l with
  | nil => rfl
  | cons a as ih =>
    rw [mapExcept, h a (List.mem_cons_self a as),
      ih (fun x hx => h x (List.mem_cons_of_mem a hx))]
    rfl

theorem normalize_record_error {r : VarRecord} {e : RErr}
    (h : normalize_record r = .error e) : e = .missingIndex := by
  rw [normalize_record] at h
  cases hg : get_tuple (pyomoKey r) with
  | none => rw [hg] at h; cases h; rfl
  | some t => rw [hg] at h; cases h

theorem get_tuple_none_of_no_entity {r : VarRecord}
    (hno : isEntityRef r.idx = false) : get_tuple (pyomoKey r) = none := by
  rcases r with ⟨b, v, idx, val⟩
  cases idx with
  | tup xs => cases hno
  | elem e => cases e with
    | node n => cases hno
    | int t => rfl
    | str s => rfl

/-- C6: when a raw record's index holds no recognizable entity reference
(no tuple and no `Node`), the extractor fails with the missing-index error
(the `TypeError` that `get_timestep(None)` raises on line 82) and produces
no result entry. -/
theorem c6_missing_entity_reference (records : List VarRecord) (ti : List String)
    (dm : Option DualMap) (s : Bool) (r : VarRecord) (hmem : r ∈ records)
    (hno : isEntityRef r.idx = false) :
    results_to_dict records ti dm s = .error .missingIndex := by
  have hr : normalize_record r = .error .missingIndex := by
    rw [normalize_record, get_tuple_none_of_no_entity hno]
  obtain ⟨e', he'⟩ := mapExcept_mem_error hmem hr (f := normalize_record)
  obtain ⟨x, _, hfx⟩ := mapExcept_error_mem he'
  have hdf : results_to_df records = .error .missingIndex := by
    rw [results_to_df, he', normalize_record_error hfx]
  rw [results_to_dict, results_with_duals, results_base, hdf]

/-- Witness for C6: a record whose pyomo index is the bare integer 7. -/
theorem c6_missing_entity_reference_witness :
    results_to_dict [⟨"om", "v", .elem (.int 7), some 1⟩] ["x"] none false =
      .error .missingIndex :=
  c6_missing_entity_reference _ _ _ _ ⟨"om", "v", .elem (.int 7), some 1⟩
    (List.mem_singleton.mpr rfl) rfl

/-- C8: a solved model yielding no variable records and no dual values
produces an empty result store and raises no error, whether or not the
model exposes an (empty) dual attribute and whether or not keys are
stringified. -/
theorem c8_empty_input (ti : List String) (b : Bool) :
    results_to_dict [] ti none b = .ok [] ∧
    results_to_dict [] ti (some []) b = .ok [] := by
  cases b <;> exact ⟨rfl, rfl⟩

/-- C7: with `keys_as_strings=True` the extractor returns exactly the
result of the plain run re-keyed by the tuples of the entities' string
labels — same values, same error behaviour — and a 1-tuple key holding a
bus labelled "electricity" becomes the key ("electricity",). -/
theorem c7_keys_as_strings (records : List VarRecord) (ti : List String)
    (dm : Option DualMap) :
    results_to_dict records ti dm true =
      Except.map stringifyStore (results_to_dict records ti dm false) ∧
    strKey [Elem.node ⟨"electricity"⟩] = [Elem.str "electricity"] := by
  refine ⟨?_, rfl⟩
  rw [results_to_dict, results_to_dict]
  cases h : results_with_duals records ti dm <;> simp [Except.map]

theorem map_fst_graph (f : α → β) (l : List α) :
    (l.map (fun v => (v, f v))).map Prod.fst = l := by
  induction l with
  | nil => rfl
  | cons v vs ih => simp [ih]

theorem process_group_ok (g : List Row) (ti : List String) (l : List Int) (t0 : Int)
    (hts : tsIntsOf g = some l)
    (hdup : hasDup g (sortedTss l) = false)
    (hlen : (sortedTss l).length = ti.length)
    (hkept : (keptRows g (sortedTss l)).head? = some t0) :
    process_group g ti = .ok
      { scalars := ((varsOf g).filter (fun v => isMissing g (sortedTss l) v)).map
          (fun v => (v, cell g v t0)),
        sequences := { index := ti,
                       cols := ((varsOf g).filter (fun v => !isMissing g (sortedTss l) v)).map
                         (fun v => (v, (sortedTss l).map (cell g v))) } } := by
  rw [process_group, hts]
  simp [hdup, hlen, hkept]

/-- Group exhibiting the divergence for claims C2: two scalar-classified
variables with staggered missing time steps, plus a full sequence
variable. -/
def c2Group : List Row :=
  [⟨[Elem.node ⟨"a"⟩, Elem.node ⟨"b"⟩], .int 0, "q", some 1⟩,
   ⟨[Elem.node ⟨"a"⟩, Elem.node ⟨"b"⟩], .int 1, "q", some 2⟩,
   ⟨[Elem.node ⟨"a"⟩, Elem.node ⟨"b"⟩], .int 2, "q", some 3⟩,
   ⟨[Elem.node ⟨"a"⟩, Elem.node ⟨"b"⟩], .int 1, "s1", some 7⟩,
   ⟨[Elem.node ⟨"a"⟩, Elem.node ⟨"b"⟩], .int 2, "s1", some 8⟩,
   ⟨[Elem.node ⟨"a"⟩, Elem.node ⟨"b"⟩], .int 0, "s2", some 100⟩,
   ⟨[Elem.node ⟨"a"⟩, Elem.node ⟨"b"⟩], .int 1, "s2", some 200⟩]

/-- Counterexample to C2 as stated: in `c2Group` the variable "s2" misses
time step 2, so it is classified scalar, but the value taken is 200 — the
value at the first row surviving `dropna()` over all scalar columns — and
not its first non-missing value 100, as the claim demands. -/
theorem c2_first_value_counterexample :
    (process_group c2Group ["x", "y", "z"]).map (fun e => lookupCol e.scalars "s2") =
      .ok (some (some 200)) ∧
    isMissing c2Group (sortedTss [0, 1, 2, 1, 2, 0, 1]) "s2" = true ∧
    specFirstNonMissing c2Group (sortedTss [0, 1, 2, 1, 2, 0, 1]) "s2" = some 100 ∧
    (some (200 : Int) : Option Int) ≠ some 100 := by
  refine ⟨rfl, rfl, rfl, by decide⟩

/-- C2 (amended): for a group pivoted over the full time index (distinct
timesteps 0..n-1, no duplicate records, and at least one row on which all
scalar-classified variables are simultaneously non-missing), every variable
name with one or more missing time steps is classified as scalar and its
value is taken from the first time step at which all scalar variables of
the group are simultaneously non-missing (rather than its own first
non-missing value), and every variable name with no missing time step
becomes a sequence column aligned one-to-one with the declared time index,
with row count equal to the number of time steps. -/
theorem c2_pivot_classification (g : List Row) (ti : List String) (l : List Int) (t0 : Int)
    (hts : tsIntsOf g = some l)
    (hfull : sortedTss l = intRange ti.length)
    (hdup : hasDup g (sortedTss l) = false)
    (hkept : (keptRows g (sortedTss l)).head? = some t0) :
    ∃ e, process_group g ti = .ok e ∧
      e.scalars = ((varsOf g).filter (fun v => isMissing g (sortedTss l) v)).map
        (fun v => (v, cell g v t0)) ∧
      e.sequences.index = ti ∧
      e.sequences.cols = ((varsOf g).filter (fun v => !isMissing g (sortedTss l) v)).map
        (fun v => (v, (intRange ti.length).map (cell g v))) ∧
      ∀ p ∈ e.sequences.cols, p.2.length = ti.length := by
  have hlen : (sortedTss l).length = ti.length := by
    rw [hfull, intRange, List.length_map, List.length_range]
  refine ⟨_, process_group_ok g ti l t0 hts hdup hlen hkept, rfl, rfl, ?_, ?_⟩
  · rw [hfull]
  · intro p hp
    obtain ⟨v, hv, rfl⟩ := List.mem_map.mp hp
    simpa using hlen

/-- Group for the C2 witness: a full sequence variable "q" and a scalar
variable "s" recorded only at time step 0. -/
def c2WitnessGroup : List Row :=
  [⟨[Elem.node ⟨"a"⟩], .int 0, "q", some 1⟩,
   ⟨[Elem.node ⟨"a"⟩], .int 1, "q", some 2⟩,
   ⟨[Elem.node ⟨"a"⟩], .int 0, "s", some 5⟩]

/-- Witness for the amended C2 on `c2WitnessGroup` over a 2-step index. -/
theorem c2_pivot_classification_witness :
    (process_group c2WitnessGroup ["x", "y"]).map
        (fun e => (e.scalars, e.sequences.index, e.sequences.cols)) =
      .ok ([("s", some 5)], ["x", "y"], [("q", [some 1, some 2])]) := by
  obtain ⟨e, he, hs, hi, hc, _⟩ :=
    c2_pivot_classification c2WitnessGroup ["x", "y"] [0, 1, 0] 0
      rfl (by decide) (by decide) (by decide)
  have h1 : e.scalars = [("s", some 5)] := by rw [hs]; decide
  have h2 : e.sequences.cols = [("q", [some 1, some 2])] := by rw [hc]; decide
  rw [he]
  show Except.ok (e.scalars, e.sequences.index, e.sequences.cols) =
    Except.ok ([("s", some 5)], ["x", "y"], [("q", [some 1, some 2])])
  rw [h1, hi, h2]

/-- Group exhibiting the divergence for claim C5: variable "a" is null at
time step 0 but holds a value at time step 1. -/
def c5Group : List Row :=
  [⟨[Elem.node ⟨"a"⟩], .int 0, "b", some 1⟩,
   ⟨[Elem.node ⟨"a"⟩], .int 1, "b", some 2⟩,
   ⟨[Elem.node ⟨"a"⟩], .int 1, "a", some 5⟩]

/-- Counterexample to C5 as stated: in `c5Group` the variable "a" is not
null at every time step (it holds 5 at step 1), yet the code classifies it
as scalar and not as a sequence column, because line 115 selects as scalar
every column with at least one null, not only the all-null ones. -/
theorem c5_all_null_counterexample :
    (process_group c5Group ["x", "y"]).map
        (fun e => (e.scalars.map Prod.fst, e.sequences.cols.map Prod.fst)) =
      .ok (["a"], ["b"]) ∧
    cell c5Group "a" 1 = some 5 := ⟨rfl, rfl⟩

/-- C5 (amended): for every relation key's group (under the success
conditions of the pivot), a variable name whose value is null at one or
more time steps is classified as scalar, and every variable name with no
null time step is classified as a sequence column. -/
theorem c5_null_classification (g : List Row) (ti : List String) (l : List Int) (t0 : Int)
    (hts : tsIntsOf g = some l)
    (hdup : hasDup g (sortedTss l) = false)
    (hlen : (sortedTss l).length = ti.length)
    (hkept : (keptRows g (sortedTss l)).head? = some t0) :
    ∃ e, process_group g ti = .ok e ∧
      e.scalars.map Prod.fst = (varsOf g).filter (fun v => isMissing g (sortedTss l) v) ∧
      e.sequences.cols.map Prod.fst =
        (varsOf g).filter (fun v => !isMissing g (sortedTss l) v) := by
  exact ⟨_, process_group_ok g ti l t0 hts hdup hlen hkept,
    map_fst_graph _ _, map_fst_graph _ _⟩

/-- Witness for the amended C5: in `c5Group` the variable "a" (one null) is
scalar and "b" (no nulls) is a sequence column. -/
theorem c5_null_classification_witness :
    (process_group c5Group ["x", "y"]).map
        (fun e => (e.scalars.map Prod.fst, e.sequences.cols.map Prod.fst)) =
      .ok (["a"], ["b"]) := by
  obtain ⟨e, he, hs, hc⟩ :=
    c5_null_classification c5Group ["x", "y"] [0, 1, 1] 1
      rfl (by decide) (by decide) (by decide)
  have h1 : e.scalars.map Prod.fst = ["a"] := by rw [hs]; decide
  have h2 : e.sequences.cols.map Prod.fst = ["b"] := by rw [hc]; decide
  rw [he]
  show Except.ok (e.scalars.map Prod.fst, e.sequences.cols.map Prod.fst) =
    Except.ok (["a"], ["b"])
  rw [h1, h2]

theorem length_filter_split (p : α → Bool) (l : List α) :
    l.length = (l.filter p).length + (l.filter (fun a => !(p a))).length := by
  induction l with
  | nil => rfl
  | cons a as ih =>
    cases hp : p a <;> simp [List.filter_cons, hp, ih] <;> omega

theorem filter_filter_own (p q : α → Bool) (l : List α) :
    (l.filter p).filter q = l.filter (fun a => p a && q a) := by
  induction l with
  | nil => rfl
  | cons a as ih => cases hp : p a <;> cases hq : q a <;> simp [List.filter_cons, hp, hq, ih]

theorem map_congr_on {f g : α → β} : ∀ {l : List α}, (∀ a ∈ l, f a = g a) →
    l.map f = l.map g
  | [], _ => rfl
  | a :: as, h => by
    rw [List.map_cons, List.map_cons, h a (List.mem_cons_self a as),
      map_congr_on (fun x hx => h x (List.mem_cons_of_mem a hx))]

theorem sum_map_ones : ∀ l : List α, (l.map (fun _ => (1 : Nat))).sum = l.length
  | [] => rfl
  | a :: as => by simp [sum_map_ones as, Nat.add_comm]

/-- Partition of a row list's length over a duplicate-free cover of its
timestep values. -/
theorem length_partition_by_ts : ∀ (tss : List Int) (F : List Row), tss.Nodup →
    (∀ r ∈ F, ∃ t ∈ tss, r.ts = Elem.int t) →
    F.length = (tss.map (fun t =>
      (F.filter (fun r => decide (r.ts = Elem.int t))).length)).sum
  | [], F, _, hcov => by
    cases F with
    | nil => rfl
    | cons r F' =>
      obtain ⟨t, ht, _⟩ := hcov r (List.mem_cons_self r F')
      cases ht
  | t :: rest, F, hnd, hcov => by
    have hsplit := length_filter_split (fun r => decide (r.ts = Elem.int t)) F
    have hndr : rest.Nodup := (List.nodup_cons.mp hnd).2
    have htr : t ∉ rest := (List.nodup_cons.mp hnd).1
    have hcov' : ∀ r ∈ F.filter (fun r => !(decide (r.ts = Elem.int t))),
        ∃ t' ∈ rest, r.ts = Elem.int t' := by
      intro r hr
      obtain ⟨hrF, hrneg⟩ := List.mem_filter.mp hr
      obtain ⟨t', ht', hts⟩ := hcov r hrF
      rcases List.mem_cons.mp ht' with rfl | ht''
      · rw [hts] at hrneg; simp at hrneg
      · exact ⟨t', ht'', hts⟩
    have ih := length_partition_by_ts rest
      (F.filter (fun r => !(decide (r.ts = Elem.int t)))) hndr hcov'
    have hsame : ∀ t' ∈ rest,
        ((F.filter (fun r => !(decide (r.ts = Elem.int t)))).filter
          (fun r => decide (r.ts = Elem.int t'))).length =
        (F.filter (fun r => decide (r.ts = Elem.int t'))).length := by
      intro t' ht'
      have hne : t' ≠ t := fun h => htr (h ▸ ht')
      rw [filter_filter_own]
      congr 1
      apply List.filter_congr
      intro r _
      by_cases hr : r.ts = Elem.int t'
      · have : ¬(r.ts = Elem.int t) := by
          rw [hr]; intro hcon
          exact hne (by injection hcon)
        simp [hr, this, hne]
      · simp [hr]
    rw [List.map_cons, List.sum_cons, hsplit, ih]
    congr 1
    exact (map_congr_on (fun t' ht' => (hsame t' ht').symm)).symm ▸ rfl

theorem tsIntsOf_mem : ∀ {g : List Row} {l : List Int}, tsIntsOf g = some l →
    ∀ r ∈ g, ∃ t ∈ l, r.ts = Elem.int t := by
  intro g
  induction g with
  | nil => intro l _ r hr; cases hr
  | cons r' g' ih =>
    intro l hl r hr
    rw [tsIntsOf] at hl
    cases hts : r'.ts with
    | int t =>
      rw [hts] at hl
      cases hg' : tsIntsOf g' with
      | none => rw [hg'] at hl; cases hl
      | some l' =>
        rw [hg'] at hl
        cases hl
        rcases List.mem_cons.mp hr with rfl | hr'
        · exact ⟨t, List.mem_cons_self t l', hts⟩
        · obtain ⟨t'', ht'', hts''⟩ := ih hg' r hr'
          exact ⟨t'', List.mem_cons_of_mem t ht'', hts''⟩
    | node n => rw [hts] at hl; cases hl
    | str s => rw [hts] at hl; cases hl

theorem sortedTss_nodup (l : List Int) : (sortedTss l).Nodup :=
  ((List.perm_insertionSort (· ≤ ·) l.dedup).nodup_iff).mpr (List.nodup_dedup l)

theorem mem_sortedTss {l : List Int} {t : Int} (h : t ∈ l) : t ∈ sortedTss l :=
  ((List.perm_insertionSort (· ≤ ·) l.dedup).mem_iff).mpr (List.mem_dedup.mpr h)

/-- A variable with no missing time step and no duplicate cell has exactly
one record per distinct timestep: its record count is the pivot's row
count. -/
theorem seqVar_count (g : List Row) (l : List Int) (v : String)
    (hts : tsIntsOf g = some l) (hv : v ∈ varsOf g)
    (hseq : ∀ t ∈ sortedTss l, (cell g v t).isSome = true)
    (hnodup : hasDup g (sortedTss l) = false) :
    recordCount g v = (sortedTss l).length := by
  have hcov : ∀ r ∈ g.filter (fun r => decide (r.var = v)),
      ∃ t ∈ sortedTss l, r.ts = Elem.int t := by
    intro r hr
    obtain ⟨t, ht, hts'⟩ := tsIntsOf_mem hts r (List.mem_filter.mp hr).1
    exact ⟨t, mem_sortedTss ht, hts'⟩
  have hpart := length_partition_by_ts (sortedTss l)
    (g.filter (fun r => decide (r.var = v))) (sortedTss_nodup l) hcov
  have hone : ∀ t ∈ sortedTss l,
      ((g.filter (fun r => decide (r.var = v))).filter
        (fun r => decide (r.ts = Elem.int t))).length = 1 := by
    intro t ht
    have hlen : ((g.filter (fun r => decide (r.var = v))).filter
        (fun r => decide (r.ts = Elem.int t))).length = (cellRecs g v t).length := by
      rw [filter_filter_own, cellRecs, List.length_map]
    have hge : 1 ≤ (cellRecs g v t).length := by
      have hc := hseq t ht
      rw [cell] at hc
      cases hh : (cellRecs g v t).head? with
      | none => rw [hh] at hc; cases hc
      | some o =>
        cases hcr : cellRecs g v t with
        | nil => rw [hcr] at hh; cases hh
        | cons a as => simp [hcr]
    have hle : (cellRecs g v t).length < 2 := by
      have h1 : ∀ x ∈ varsOf g, ∀ x1 ∈ sortedTss l, (cellRecs g x x1).length < 2 := by
        simpa [hasDup] using hnodup
      exact h1 v hv t ht
    rw [hlen]
    omega
  rw [recordCount, hpart, map_congr_on hone, sum_map_ones]

theorem setCol_error {f : Frame} {name : String} {vs : List (Option Int)} {e : RErr}
    (h : Frame.setCol f name vs = .error e) : e = .alignment := by
  rw [Frame.setCol] at h
  by_cases hl : vs.length = f.index.length
  · rw [if_pos hl] at h; cases h
  · rw [if_neg hl] at h; cases h; rfl

theorem upd_dual_entry_error {duals : List (Option Int)} {key : List Elem}
    {p : List Elem × Entry} {e : RErr}
    (h : upd_dual_entry duals key p = .error e) : e = .alignment := by
  rw [upd_dual_entry] at h
  by_cases hk : p.1 = key
  · rw [if_pos hk] at h
    cases hsc : Frame.setCol p.2.sequences "duals" duals with
    | error e' =>
      rw [hsc] at h
      cases h
      exact setCol_error hsc
    | ok f => rw [hsc] at h; cases h
  · rw [if_neg hk] at h; cases h

/-- C3: whenever a sequence-classified variable's record count for a
relation key differs from the time index length, the group processing fails
with the alignment error (the spec's `DataAlignmentError`); whenever an
attached duals sequence's length mismatches an entry's existing sequence
length, the per-bus augmentation fails with the alignment error; and no
partial result is ever returned: a successful `results_to_dict` run implies
every relation key's group was pivoted and split successfully. -/
theorem c3_data_alignment :
    (∀ (g : List Row) (ti : List String) (l : List Int) (v : String),
      tsIntsOf g = some l → v ∈ varsOf g →
      (∀ t ∈ sortedTss l, (cell g v t).isSome = true) →
      recordCount g v ≠ ti.length →
      process_group g ti = .error .alignment) ∧
    (∀ (ti : List String) (dm : DualMap) (b : Node) (st : Store)
      (p : List Elem × Entry), p ∈ st → p.1 = [Elem.node b] →
      ((busDuals dm b).map some).length ≠ p.2.sequences.index.length →
      add_dual_bus ti dm b st = .error .alignment) ∧
    (∀ (records : List VarRecord) (ti : List String) (dm : Option DualMap)
      (s : Bool) (store : Store), results_to_dict records ti dm s = .ok store →
      ∃ rows, results_to_df records = .ok rows ∧
        ∀ k ∈ keysOf rows, ∃ en, process_group (groupOf rows k) ti = .ok en) := by
  refine ⟨?_, ?_, ?_⟩
  · intro g ti l v hts hv hseq hcount
    rw [process_group, hts]
    by_cases hd : hasDup g (sortedTss l) = true
    · simp [hd]
    · have hd' : hasDup g (sortedTss l) = false := by
        revert hd; cases hasDup g (sortedTss l) <;> simp
      have hc := seqVar_count g l v hts hv hseq hd'
      have hne : ¬((sortedTss l).length = ti.length) := by
        rw [hc] at hcount; exact hcount
      simp [hd', hne]
  · intro ti dm b st p hmem hkey hlen
    rw [add_dual_bus]
    have hany : st.any (fun q => decide (q.1 = [Elem.node b])) = true :=
      List.any_eq_true.mpr ⟨p, hmem, by simp [hkey]⟩
    rw [if_pos hany]
    have hp : upd_dual_entry ((busDuals dm b).map some) [Elem.node b] p =
        .error .alignment := by
      rw [upd_dual_entry, if_pos hkey, Frame.setCol, if_neg hlen]
    obtain ⟨e', he'⟩ := mapExcept_mem_error hmem hp
    obtain ⟨x, _, hfx⟩ := mapExcept_error_mem he'
    rw [he', upd_dual_entry_error hfx]
  · intro records ti dm s store h
    rw [results_to_dict] at h
    cases hwd : results_with_duals records ti dm with
    | error e => rw [hwd] at h; cases h
    | ok withD =>
      rw [results_with_duals] at hwd
      cases hb : results_base records ti with
      | error e => rw [hb] at hwd; cases hwd
      | ok base =>
        rw [results_base] at hb
        cases hdf : results_to_df records with
        | error e => rw [hdf] at hb; cases hb
        | ok rows =>
          rw [hdf] at hb
          refine ⟨rows, rfl, ?_⟩
          intro k hk
          obtain ⟨y, _, hfy⟩ := mapExcept_ok_mem hb k hk
          rw [group_entry] at hfy
          cases hpg : process_group (groupOf rows k) ti with
          | error e => rw [hpg] at hfy; cases hfy
          | ok en => exact ⟨en, rfl⟩

/-- Group for the C3 witness: a sequence variable "q" with only 2 records
against a 3-step time index. -/
def c3Group : List Row :=
  [⟨[Elem.node ⟨"a"⟩], .int 0, "q", some 1⟩,
   ⟨[Elem.node ⟨"a"⟩], .int 1, "q", some 2⟩]

/-- Witness for C3: the short group fails with the alignment error, and so
does attaching a 2-long duals list to an entry with a 3-row sequence
table. -/
theorem c3_data_alignment_witness :
    process_group c3Group ["x", "y", "z"] = .error .alignment ∧
    add_dual_bus ["x", "y", "z"] [((⟨"bel"⟩, 0), 11), ((⟨"bel"⟩, 1), 22)] ⟨"bel"⟩
      [([Elem.node ⟨"bel"⟩],
        ⟨[], ⟨["x", "y", "z"], [("flow", [some 1, some 2, some 3])]⟩⟩)] =
      .error .alignment := by
  constructor
  · exact c3_data_alignment.1 c3Group ["x", "y", "z"] [0, 1] "q"
      rfl (by decide) (by decide) (by decide)
  · exact c3_data_alignment.2.1 ["x", "y", "z"] [((⟨"bel"⟩, 0), 11), ((⟨"bel"⟩, 1), 22)]
      ⟨"bel"⟩ _ ([Elem.node ⟨"bel"⟩],
        ⟨[], ⟨["x", "y", "z"], [("flow", [some 1, some 2, some 3])]⟩⟩)
      (List.mem_singleton.mpr rfl) rfl (by decide)

/-- C4: when the solver reports dual values, then for every bus the bus's
dual values are attached sorted by time step; if the bus's 1-tuple relation
key is absent from the result store a new entry is created holding only a
duals sequence and an empty scalar partition, and otherwise a `duals`
column is appended to the existing entry's sequence table (all other
columns kept in place). -/
theorem c4_dual_augmentation (ti : List String) (dm : DualMap) (b : Node) (st : Store) :
    ((busTs dm b).Pairwise (· ≤ ·) ∧
      busDuals dm b = (busTs dm b).map (dualVal dm b)) ∧
    (st.any (fun p => decide (p.1 = [Elem.node b])) = false →
      ((busDuals dm b).map some).length = ti.length →
      add_dual_bus ti dm b st = .ok (st ++
        [([Elem.node b], ⟨[], ⟨ti, [("duals", (busDuals dm b).map some)]⟩⟩)])) ∧
    (st.any (fun p => decide (p.1 = [Elem.node b])) = true →
      (∀ p ∈ st, p.1 = [Elem.node b] →
        ((busDuals dm b).map some).length = p.2.sequences.index.length) →
      add_dual_bus ti dm b st = .ok (st.map (fun p =>
        if p.1 = [Elem.node b] then
          (p.1, ⟨p.2.scalars, ⟨p.2.sequences.index,
            setColList p.2.sequences.cols "duals" ((busDuals dm b).map some)⟩⟩)
        else p))) := by
  refine ⟨⟨List.sorted_insertionSort _ _, rfl⟩, ?_, ?_⟩
  · intro hany hlen
    simp [add_dual_bus, hany, hlen]
  · intro hany hlen
    rw [add_dual_bus]
    simp only [if_pos hany]
    apply mapExcept_ok_of
    intro p hp
    by_cases hk : p.1 = [Elem.node b]
    · rw [upd_dual_entry, if_pos hk, Frame.setCol, if_pos (hlen p hp hk), if_pos hk]
    · rw [upd_dual_entry, if_neg hk, if_neg hk]

/-- Witness for C4: bus "bel" with an existing 3-row sequence table gains
the duals column [11, 22, 33]. -/
theorem c4_dual_augmentation_witness :
    add_dual_bus ["x", "y", "z"]
      [((⟨"bel"⟩, 0), 11), ((⟨"bel"⟩, 1), 22), ((⟨"bel"⟩, 2), 33)] ⟨"bel"⟩
      [([Elem.node ⟨"bel"⟩], ⟨[("invest", some 4)],
        ⟨["x", "y", "z"], [("flow", [some 1, some 2, some 3])]⟩⟩)] =
    .ok [([Elem.node ⟨"bel"⟩], ⟨[("invest", some 4)],
        ⟨["x", "y", "z"], [("flow", [some 1, some 2, some 3]),
                           ("duals", [some 11, some 22, some 33])]⟩⟩)] := by
  have h := (c4_dual_augmentation ["x", "y", "z"]
    [((⟨"bel"⟩, 0), 11), ((⟨"bel"⟩, 1), 22), ((⟨"bel"⟩, 2), 33)] ⟨"bel"⟩
    [([Elem.node ⟨"bel"⟩], ⟨[("invest", some 4)],
      ⟨["x", "y", "z"], [("flow", [some 1, some 2, some 3])]⟩⟩)]).2.2
    (by decide) (by decide)
  exact h.trans (congrArg Except.ok (by decide))

/-- Preservation of everything claim C10 says the dual augmentation leaves
alone: the scalar partition, the sequence row index, and every sequence
column other than "duals". -/
def entry_preserved (e e' : Entry) : Prop :=
  e'.scalars = e.scalars ∧ e'.sequences.index = e.sequences.index ∧
  ∀ c, c ≠ "duals" → lookupCol e'.sequences.cols c = lookupCol e.sequences.cols c

theorem entry_preserved_refl (e : Entry) : entry_preserved e e :=
  ⟨rfl, rfl, fun _ _ => rfl⟩

theorem entry_preserved_trans {e1 e2 e3 : Entry}
    (h1 : entry_preserved e1 e2) (h2 : entry_preserved e2 e3) :
    entry_preserved e1 e3 :=
  ⟨h2.1.trans h1.1, h2.2.1.trans h1.2.1,
   fun c hc => (h2.2.2 c hc).trans (h1.2.2 c hc)⟩

theorem lookupCol_map_replace {cols : List (String × List (Option Int))}
    {name c : String} {vs : List (Option Int)} (hc : c ≠ name) :
    lookupCol (cols.map (fun x => if x.1 = name then (name, vs) else x)) c =
    lookupCol cols c := by
  induction cols with
  | nil => rfl
  | cons x xs ih =>
    by_cases hx : x.1 = name
    · have hxc : ¬(x.1 = c) := by rw [hx]; exact fun h => hc h.symm
      simp only [List.map_cons, if_pos hx, lookupCol, List.find?_cons]
      have h1 : decide ((name, vs).1 = c) = false := by
        simp; exact fun h => hc h.symm
      have h2 : decide (x.1 = c) = false := by simp [hxc]
      rw [h1, h2]
      exact ih
    · simp only [List.map_cons, if_neg hx, lookupCol, List.find?_cons]
      cases hxc : decide (x.1 = c)
      · exact ih
      · rfl

theorem lookupCol_append_ne {cols : List (String × List (Option Int))}
    {name c : String} {vs : List (Option Int)} (hc : c ≠ name) :
    lookupCol (cols ++ [(name, vs)]) c = lookupCol cols c := by
  induction cols with
  | nil =>
    simp only [List.nil_append, lookupCol, List.find?_cons, List.find?_nil]
    have h1 : decide ((name, vs).1 = c) = false := by
      simp; exact fun h => hc h.symm
    rw [h1]
  | cons x xs ih =>
    simp only [List.cons_append, lookupCol, List.find?_cons]
    cases hxc : decide (x.1 = c)
    · exact ih
    · rfl

theorem setColList_lookup_ne {cols : List (String × List (Option Int))}
    {name c : String} {vs : List (Option Int)} (hc : c ≠ name) :
    lookupCol (setColList cols name vs) c = lookupCol cols c := by
  rw [setColList]
  by_cases hin : cols.any (fun x => decide (x.1 = name)) = true
  · rw [if_pos hin]
    exact lookupCol_map_replace hc
  · rw [if_neg hin]
    exact lookupCol_append_ne hc

theorem add_dual_bus_frame {ti : List String} {dm : DualMap} {b : Node}
    {st st1 : Store} (h : add_dual_bus ti dm b st = .ok st1) :
    ∀ p ∈ st, p.1 ≠ [Elem.node b] → p ∈ st1 := by
  intro p hp hne
  rw [add_dual_bus] at h
  by_cases hany : st.any (fun q => decide (q.1 = [Elem.node b])) = true
  · rw [if_pos hany] at h
    obtain ⟨y, hy, hfy⟩ := mapExcept_ok_mem h p hp
    rw [upd_dual_entry, if_neg hne] at hfy
    cases hfy
    exact hy
  · rw [if_neg hany] at h
    by_cases hl : ((busDuals dm b).map some).length = ti.length
    · rw [if_pos hl] at h
      cases h
      exact List.mem_append_left _ hp
    · rw [if_neg hl] at h
      cases h

theorem add_dual_bus_pres {ti : List String} {dm : DualMap} {b : Node}
    {st st1 : Store} (h : add_dual_bus ti dm b st = .ok st1) :
    ∀ p ∈ st, ∃ e', (p.1, e') ∈ st1 ∧ entry_preserved p.2 e' := by
  intro p hp
  rw [add_dual_bus] at h
  by_cases hany : st.any (fun q => decide (q.1 = [Elem.node b])) = true
  · rw [if_pos hany] at h
    obtain ⟨y, hy, hfy⟩ := mapExcept_ok_mem h p hp
    rw [upd_dual_entry] at hfy
    by_cases hk : p.1 = [Elem.node b]
    · rw [if_pos hk] at hfy
      cases hsc : Frame.setCol p.2.sequences "duals" ((busDuals dm b).map some) with
      | error e => rw [hsc] at hfy; cases hfy
      | ok f =>
        rw [hsc] at hfy
        cases hfy
        rw [Frame.setCol] at hsc
        by_cases hl : ((busDuals dm b).map some).length = p.2.sequences.index.length
        · rw [if_pos hl] at hsc
          cases hsc
          exact ⟨_, hy, rfl, rfl, fun c hc => setColList_lookup_ne hc⟩
        · rw [if_neg hl] at hsc
          cases hsc
    · rw [if_neg hk] at hfy
      cases hfy
      exact ⟨p.2, hy, entry_preserved_refl p.2⟩
  · rw [if_neg hany] at h
    by_cases hl : ((busDuals dm b).map some).length = ti.length
    · rw [if_pos hl] at h
      cases h
      exact ⟨p.2, List.mem_append_left _ hp, entry_preserved_refl p.2⟩
    · rw [if_neg hl] at h
      cases h

theorem add_dual_bus_new {ti : List String} {dm : DualMap} {b : Node}
    {st st1 : Store} (h : add_dual_bus ti dm b st = .ok st1) :
    ∀ q ∈ st1, (∃ e, (q.1, e) ∈ st ∧ entry_preserved e q.2) ∨
      (q.1 = [Elem.node b] ∧ q.2.scalars = [] ∧
        ∀ c, c ≠ "duals" → lookupCol q.2.sequences.cols c = none) := by
  intro q hq
  rw [add_dual_bus] at h
  by_cases hany : st.any (fun p => decide (p.1 = [Elem.node b])) = true
  · rw [if_pos hany] at h
    obtain ⟨p, hp, hfp⟩ := mapExcept_mem_ok h q hq
    rw [upd_dual_entry] at hfp
    by_cases hk : p.1 = [Elem.node b]
    · rw [if_pos hk] at hfp
      cases hsc : Frame.setCol p.2.sequences "duals" ((busDuals dm b).map some) with
      | error e => rw [hsc] at hfp; cases hfp
      | ok f =>
        rw [hsc] at hfp
        cases hfp
        rw [Frame.setCol] at hsc
        by_cases hl : ((busDuals dm b).map some).length = p.2.sequences.index.length
        · rw [if_pos hl] at hsc
          cases hsc
          exact Or.inl ⟨p.2, hp, rfl, rfl, fun c hc => setColList_lookup_ne hc⟩
        · rw [if_neg hl] at hsc
          cases hsc
    · rw [if_neg hk] at hfp
      cases hfp
      exact Or.inl ⟨q.2, hp, entry_preserved_refl q.2⟩
  · rw [if_neg hany] at h
    by_cases hl : ((busDuals dm b).map some).length = ti.length
    · rw [if_pos hl] at h
      cases h
      rcases List.mem_append.mp hq with hq' | hq'
      · exact Or.inl ⟨q.2, hq', entry_preserved_refl q.2⟩
      · rcases List.mem_singleton.mp hq' with rfl
        refine Or.inr ⟨rfl, rfl, ?_⟩
        intro c hc
        simp only [lookupCol, List.find?_cons, List.find?_nil]
        have h1 : decide (("duals", (busDuals dm b).map some).1 = c) = false := by
          simp; exact fun hcon => hc hcon.symm
        rw [h1]
        rfl
    · rw [if_neg hl] at h
      cases h

theorem add_duals_frame {ti : List String} {dm : DualMap} :
    ∀ {buses : List Node} {st st1 : Store}, add_duals ti dm buses st = .ok st1 →
    ∀ p ∈ st, (∀ b ∈ buses, p.1 ≠ [Elem.node b]) → p ∈ st1 := by
  intro buses
  induction buses with
  | nil =>
    intro st st1 h p hp _
    rw [add_duals] at h
    cases h
    exact hp
  | cons b rest ih =>
    intro st st1 h p hp hne
    rw [add_duals] at h
    cases hb : add_dual_bus ti dm b st with
    | error e => rw [hb] at h; cases h
    | ok stm =>
      rw [hb] at h
      exact ih h p (add_dual_bus_frame hb p hp (hne b (List.mem_cons_self b rest)))
        (fun b' hb' => hne b' (List.mem_cons_of_mem b hb'))

theorem add_duals_pres {ti : List String} {dm : DualMap} :
    ∀ {buses : List Node} {st st1 : Store}, add_duals ti dm buses st = .ok st1 →
    ∀ p ∈ st, ∃ e', (p.1, e') ∈ st1 ∧ entry_preserved p.2 e' := by
  intro buses
  induction buses with
  | nil =>
    intro st st1 h p hp
    rw [add_duals] at h
    cases h
    exact ⟨p.2, hp, entry_preserved_refl p.2⟩
  | cons b rest ih =>
    intro st st1 h p hp
    rw [add_duals] at h
    cases hb : add_dual_bus ti dm b st with
    | error e => rw [hb] at h; cases h
    | ok stm =>
      rw [hb] at h
      obtain ⟨e1, he1, hp1⟩ := add_dual_bus_pres hb p hp
      obtain ⟨e2, he2, hp2⟩ := ih h (p.1, e1) he1
      exact ⟨e2, he2, entry_preserved_trans hp1 hp2⟩

theorem add_duals_new {ti : List String} {dm : DualMap} :
    ∀ {buses : List Node} {st st1 : Store}, add_duals ti dm buses st = .ok st1 →
    ∀ q ∈ st1, (∃ e, (q.1, e) ∈ st ∧ entry_preserved e q.2) ∨
      (∃ b ∈ buses, q.1 = [Elem.node b] ∧ q.2.scalars = [] ∧
        ∀ c, c ≠ "duals" → lookupCol q.2.sequences.cols c = none) := by
  intro buses
  induction buses with
  | nil =>
    intro st st1 h q hq
    rw [add_duals] at h
    cases h
    exact Or.inl ⟨q.2, hq, entry_preserved_refl q.2⟩
  | cons b rest ih =>
    intro st st1 h q hq
    rw [add_duals] at h
    cases hb : add_dual_bus ti dm b st with
    | error e => rw [hb] at h; cases h
    | ok stm =>
      rw [hb] at h
      rcases ih h q hq with ⟨e, hem, hpres⟩ | ⟨b', hb', hkey, hsc, hlk⟩
      · rcases add_dual_bus_new hb (q.1, e) hem with ⟨e0, he0, hp0⟩ | ⟨hkey, hsc, hlk⟩
        · exact Or.inl ⟨e0, he0, entry_preserved_trans hp0 hpres⟩
        · refine Or.inr ⟨b, List.mem_cons_self b rest, hkey, hpres.1.trans hsc, ?_⟩
          intro c hc
          exact (hpres.2.2 c hc).trans (hlk c hc)
      · exact Or.inr ⟨b', List.mem_cons_of_mem b hb', hkey, hsc, hlk⟩

/-- C10: a successful dual augmentation only appends new entries keyed by
1-tuples of balanced buses holding an empty scalar partition and no
sequence column but "duals", or assigns a "duals" column on an existing
entry; every entry whose key is no balanced bus's 1-tuple survives
unchanged, and every pre-existing entry keeps its scalar partition, its
sequence row index, and all its sequence columns other than "duals". -/
theorem c10_dual_frame_effect (ti : List String) (dm : DualMap) (st st1 : Store)
    (h : add_duals ti dm (busesOf dm) st = .ok st1) :
    (∀ p ∈ st, (∀ b ∈ busesOf dm, p.1 ≠ [Elem.node b]) → p ∈ st1) ∧
    (∀ p ∈ st, ∃ e', (p.1, e') ∈ st1 ∧ e'.scalars = p.2.scalars ∧
      e'.sequences.index = p.2.sequences.index ∧
      ∀ c, c ≠ "duals" →
        lookupCol e'.sequences.cols c = lookupCol p.2.sequences.cols c) ∧
    (∀ q ∈ st1, (∃ e, (q.1, e) ∈ st) ∨
      (∃ b ∈ busesOf dm, q.1 = [Elem.node b] ∧ q.2.scalars = [] ∧
        ∀ c, c ≠ "duals" → lookupCol q.2.sequences.cols c = none)) := by
  refine ⟨add_duals_frame h, ?_, ?_⟩
  · intro p hp
    obtain ⟨e', he', hpres⟩ := add_duals_pres h p hp
    exact ⟨e', he', hpres.1, hpres.2.1, hpres.2.2⟩
  · intro q hq
    rcases add_duals_new h q hq with ⟨e, hem, _⟩ | hnew
    · exact Or.inl ⟨e, hem⟩
    · exact Or.inr hnew

/-- Witness for C10: a store holding one flow entry keyed by a 2-tuple is
untouched by augmenting with one bus's dual value. -/
theorem c10_dual_frame_effect_witness :
    (([Elem.node ⟨"x1"⟩, Elem.node ⟨"x2"⟩],
      (⟨[("invest", some 4)], ⟨["t"], [("flow", [some 1])]⟩⟩ : Entry)) ∈
      ([([Elem.node ⟨"x1"⟩, Elem.node ⟨"x2"⟩],
         ⟨[("invest", some 4)], ⟨["t"], [("flow", [some 1])]⟩⟩),
        ([Elem.node ⟨"bus"⟩], ⟨[], ⟨["t"], [("duals", [some 7])]⟩⟩)] : Store)) :=
  (c10_dual_frame_effect ["t"] [((⟨"bus"⟩, 0), 7)]
    [([Elem.node ⟨"x1"⟩, Elem.node ⟨"x2"⟩],
      ⟨[("invest", some 4)], ⟨["t"], [("flow", [some 1])]⟩⟩)] _ rfl).1
    _ (List.mem_singleton.mpr rfl) (by decide)

end Oemof
